import Mathlib

/-!
Verification of the cookie-handoff library: the AES-256-GCM seal/unseal
envelope codec (src/crypto module) and the framework cookie-option mapping
(src/adapters module).

Bytes are modelled as `Nat` (with explicit `< 256` bounds where the wire
format requires real octets).  Platform primitives that are not repository
code (Web Crypto SHA-256 / AES-GCM, JSON.stringify / JSON.parse, btoa / atob)
are modelled by executable functions that realise exactly the contracts the
source relies on; every such model carries a doc comment saying so.  All
repository logic (token layout, splitting, validation order, expiration
check, field overwrite/strip, option merging) is translated directly from
the source.
-/

namespace CookieHandoff

/-! ### Self-delimiting varint byte encoding (model infrastructure)

A canonical little-endian base-128 encoding of naturals, used by the
idealized models of the platform serialization primitives.  Each emitted
byte is `< 256`; `encodeVarintAux` carries fuel so that the definition is
structurally recursive and kernel-reducible. -/

def encodeVarintAux : Nat → Nat → List Nat
  | 0, n => [n]
  | fuel + 1, n => if n < 128 then [n] else (n % 128 + 128) :: encodeVarintAux fuel (n / 128)

def encodeVarint (n : Nat) : List Nat := encodeVarintAux n n

def decodeVarint : List Nat → Option (Nat × List Nat)
  | [] => none
  | b :: rest =>
    if b < 128 then some (b, rest)
    else
      match decodeVarint rest with
      | some (m, r) => some (b - 128 + 128 * m, r)
      | none => none

theorem decodeVarint_encodeVarintAux (fuel : Nat) :
    ∀ n r, n ≤ fuel → decodeVarint (encodeVarintAux fuel n ++ r) = some (n, r) := by
  induction fuel with
  | zero =>
    intro n r hn
    have hn0 : n = 0 := Nat.le_zero.mp hn
    subst hn0
    simp [encodeVarintAux, decodeVarint]
  | succ fuel ih =>
    intro n r hn
    by_cases h : n < 128
    · simp [encodeVarintAux, h, decodeVarint]
    · have hrec : n / 128 ≤ fuel := by
        have : n / 128 < n := Nat.div_lt_self (by omega) (by omega)
        omega
      simp only [encodeVarintAux, if_neg h, List.cons_append, decodeVarint]
      rw [if_neg (by omega), ih (n / 128) r hrec]
      simp only [Option.some.injEq, Prod.mk.injEq, and_true]
      omega

theorem decodeVarint_encodeVarint (n : Nat) (r : List Nat) :
    decodeVarint (encodeVarint n ++ r) = some (n, r) :=
  decodeVarint_encodeVarintAux n n r (Nat.le_refl n)

theorem mem_encodeVarintAux_lt (fuel : Nat) :
    ∀ n, n ≤ fuel → ∀ b ∈ encodeVarintAux fuel n, b < 256 := by
  induction fuel with
  | zero =>
    intro n hn b hb
    have hn0 : n = 0 := Nat.le_zero.mp hn
    subst hn0
    simp [encodeVarintAux] at hb
    omega
  | succ fuel ih =>
    intro n hn b hb
    by_cases h : n < 128
    · simp [encodeVarintAux, h] at hb
      omega
    · simp only [encodeVarintAux, if_neg h, List.mem_cons] at hb
      rcases hb with hb | hb
      · omega
      · exact ih (n / 128) (by
          have : n / 128 < n := Nat.div_lt_self (by omega) (by omega)
          omega) b hb

theorem mem_encodeVarint_lt (n : Nat) : ∀ b ∈ encodeVarint n, b < 256 :=
  mem_encodeVarintAux_lt n n (Nat.le_refl n)

/-! ### Count-prefixed lists of varints -/

def encNats : List Nat → List Nat
  | [] => []
  | n :: ns => encodeVarint n ++ encNats ns

def encodeNatList (l : List Nat) : List Nat := encodeVarint l.length ++ encNats l

def decNats : Nat → List Nat → Option (List Nat × List Nat)
  | 0, bytes => some ([], bytes)
  | count + 1, bytes =>
    match decodeVarint bytes with
    | some (n, r) =>
      match decNats count r with
      | some (ns, r2) => some (n :: ns, r2)
      | none => none
    | none => none

def decodeNatList (bytes : List Nat) : Option (List Nat × List Nat) :=
  match decodeVarint bytes with
  | some (count, r) => decNats count r
  | none => none

theorem decNats_encNats (l : List Nat) :
    ∀ r, decNats l.length (encNats l ++ r) = some (l, r) := by
  induction l with
  | nil => intro r; simp [encNats, decNats]
  | cons n ns ih =>
    intro r
    simp only [List.length_cons, encNats, decNats, List.append_assoc,
      decodeVarint_encodeVarint, ih r]

theorem decodeNatList_encodeNatList (l : List Nat) (r : List Nat) :
    decodeNatList (encodeNatList l ++ r) = some (l, r) := by
  simp only [decodeNatList, encodeNatList, List.append_assoc,
    decodeVarint_encodeVarint, decNats_encNats]

theorem mem_encNats_lt (l : List Nat) : ∀ b ∈ encNats l, b < 256 := by
  induction l with
  | nil => simp [encNats]
  | cons n ns ih =>
    intro b hb
    simp only [encNats, List.mem_append] at hb
    rcases hb with hb | hb
    · exact mem_encodeVarint_lt n b hb
    · exact ih b hb

theorem mem_encodeNatList_lt (l : List Nat) : ∀ b ∈ encodeNatList l, b < 256 := by
  intro b hb
  simp only [encodeNatList, List.mem_append] at hb
  rcases hb with hb | hb
  · exact mem_encodeVarint_lt _ b hb
  · exact mem_encNats_lt l b hb

/-! ### Self-delimiting string encoding -/

def encStr (s : String) : List Nat := encodeNatList (s.data.map Char.toNat)

def decStr (bytes : List Nat) : Option (String × List Nat) :=
  match decodeNatList bytes with
  | some (ns, r) => some (String.mk (ns.map Char.ofNat), r)
  | none => none

theorem decStr_encStr (s : String) (r : List Nat) :
    decStr (encStr s ++ r) = some (s, r) := by
  simp only [decStr, encStr, decodeNatList_encodeNatList, List.map_map]
  have : s.data.map (Char.ofNat ∘ Char.toNat) = s.data := by
    have : (Char.ofNat ∘ Char.toNat) = id := by
      funext c
      exact Char.ofNat_toNat c
    simp [this]
  rw [this]

theorem mem_encStr_lt (s : String) : ∀ b ∈ encStr s, b < 256 :=
  mem_encodeNatList_lt _

/-! ### Idealized Web Crypto primitives

Modelled from the spec: `deriveKey` (src: SHA-256 digest of the UTF-8
secret imported as a raw AES-GCM key via `crypto.subtle`) is modelled as an
injective function of the secret — the model identifies the key material
with the secret itself, realising the spec's determinism requirement and
(ideally) SHA-256's collision resistance.

Modelled from the spec: AES-256-GCM (`crypto.subtle.encrypt` / `decrypt`
with a 128-bit tag) is modelled as an idealized authenticated-encryption
scheme: the ciphertext embeds a self-delimiting tag of the key and IV
followed by the plaintext, and decryption succeeds exactly when key and IV
match the ones used to encrypt (the spec: "Tag verification is intrinsic to
the decrypt operation — any tampering of ciphertext, IV, or tag causes
decryption itself to fail"). -/

def deriveKey (secret : String) : String := secret

def encryptGCM (key : String) (iv : List Nat) (pt : List Nat) : List Nat :=
  encStr key ++ (encodeNatList iv ++ pt)

def decryptGCM (key : String) (iv : List Nat) (ct : List Nat) : Option (List Nat) :=
  match decStr ct with
  | some (k, r) =>
    match decodeNatList r with
    | some (ivTag, pt) => if k = key ∧ ivTag = iv then some pt else none
    | none => none
  | none => none

theorem decryptGCM_encryptGCM (key : String) (iv pt : List Nat) :
    decryptGCM key iv (encryptGCM key iv pt) = some pt := by
  simp [decryptGCM, encryptGCM, decStr_encStr, decodeNatList_encodeNatList]

theorem decryptGCM_wrong_key (key key2 : String) (iv iv2 pt : List Nat)
    (h : key2 ≠ key) : decryptGCM key2 iv2 (encryptGCM key iv pt) = none := by
  simp only [decryptGCM, encryptGCM, decStr_encStr, decodeNatList_encodeNatList]
  rw [if_neg]
  intro hc
  exact h (hc.1.symm ▸ rfl)

theorem mem_encryptGCM_lt (key : String) (iv pt : List Nat)
    (hpt : ∀ b ∈ pt, b < 256) : ∀ b ∈ encryptGCM key iv pt, b < 256 := by
  intro b hb
  simp only [encryptGCM, List.mem_append] at hb
  rcases hb with hb | hb | hb
  · exact mem_encStr_lt key b hb
  · exact mem_encodeNatList_lt iv b hb
  · exact hpt b hb

/-! ### JSON values

The payloads of seal/unseal: JSON-serializable data.  Numbers are modelled
as integers (the values relevant to the codec — the embedded expiration
instants — are integral milliseconds-since-epoch). -/

inductive JValue where
  | null : JValue
  | bool : Bool → JValue
  | num : Int → JValue
  | str : String → JValue
  | arr : List JValue → JValue
  | obj : List (String × JValue) → JValue

/-! Modelled from the spec: `JSON.stringify` composed with UTF-8 encoding
(`new TextEncoder().encode(JSON.stringify(data))` in `seal`) — a platform
primitive, modelled as an injective byte serialization of JSON values
(tag-length-value form rather than JSON text, which loses nothing the
codec relies on: the source only ever parses back what it serialized). -/

mutual

def encVal : JValue → List Nat
  | .null => [0]
  | .bool b => [1, if b then 1 else 0]
  | .num n => 2 :: (if n < 0 then 1 else 0) :: encodeVarint n.natAbs
  | .str s => 3 :: encStr s
  | .arr xs => 4 :: encodeVarint xs.length ++ encArr xs
  | .obj fs => 5 :: encodeVarint fs.length ++ encObj fs

def encArr : List JValue → List Nat
  | [] => []
  | x :: xs => encVal x ++ encArr xs

def encObj : List (String × JValue) → List Nat
  | [] => []
  | (k, v) :: fs => encStr k ++ encVal v ++ encObj fs

end

mutual

def jdepth : JValue → Nat
  | .arr xs => jdepthA xs + 1
  | .obj fs => jdepthO fs + 1
  | _ => 1

def jdepthA : List JValue → Nat
  | [] => 0
  | x :: xs => max (jdepth x) (jdepthA xs)

def jdepthO : List (String × JValue) → Nat
  | [] => 0
  | (_, v) :: fs => max (jdepth v) (jdepthO fs)

end

def decListAux (f : List Nat → Option (JValue × List Nat)) :
    Nat → List Nat → Option (List JValue × List Nat)
  | 0, bytes => some ([], bytes)
  | count + 1, bytes =>
    match f bytes with
    | some (x, r) =>
      match decListAux f count r with
      | some (xs, r2) => some (x :: xs, r2)
      | none => none
    | none => none

def decObjAux (f : List Nat → Option (JValue × List Nat)) :
    Nat → List Nat → Option (List (String × JValue) × List Nat)
  | 0, bytes => some ([], bytes)
  | count + 1, bytes =>
    match decStr bytes with
    | some (k, r) =>
      match f r with
      | some (v, r2) =>
        match decObjAux f count r2 with
        | some (fs, r3) => some ((k, v) :: fs, r3)
        | none => none
      | none => none
    | none => none

/-- Modelled from the spec: `JSON.parse` after UTF-8 decoding (a platform
primitive) — the partial inverse of the serialization above, fuelled so
that it is structurally recursive.  Returns `none` on bytes that are not a
serialization (parse error). -/
def decVal : Nat → List Nat → Option (JValue × List Nat)
  | 0, _ => none
  | fuel + 1, bytes =>
    match bytes with
    | 0 :: r => some (.null, r)
    | 1 :: b :: r =>
      if b = 1 then some (.bool true, r)
      else if b = 0 then some (.bool false, r) else none
    | 2 :: s :: r =>
      match decodeVarint r with
      | some (m, r2) =>
        if s = 0 then some (.num (m : Int), r2)
        else if s = 1 then some (.num (-(m : Int)), r2)
        else none
      | none => none
    | 3 :: r =>
      match decStr r with
      | some (s, r2) => some (.str s, r2)
      | none => none
    | 4 :: r =>
      match decodeVarint r with
      | some (n, r2) =>
        match decListAux (decVal fuel) n r2 with
        | some (xs, r3) => some (.arr xs, r3)
        | none => none
      | none => none
    | 5 :: r =>
      match decodeVarint r with
      | some (n, r2) =>
        match decObjAux (decVal fuel) n r2 with
        | some (fs, r3) => some (.obj fs, r3)
        | none => none
      | none => none
    | _ => none

def jsonDecode (bytes : List Nat) : Option JValue :=
  match decVal (bytes.length + 1) bytes with
  | some (v, []) => some v
  | _ => none

mutual

theorem decVal_encVal : ∀ (v : JValue) (fuel : Nat), jdepth v ≤ fuel →
    ∀ r, decVal fuel (encVal v ++ r) = some (v, r)
  | v, 0, h, _ => by
    exfalso
    cases v <;> simp [jdepth] at h
  | .null, fuel + 1, _, r => by
    simp [encVal, decVal]
  | .bool b, fuel + 1, _, r => by
    cases b <;> simp [encVal, decVal]
  | .num n, fuel + 1, _, r => by
    by_cases hn : n < 0
    · rw [show encVal (.num n) = 2 :: 1 :: encodeVarint n.natAbs by
        simp [encVal, hn]]
      simp only [List.cons_append, decVal, decodeVarint_encodeVarint]
      have hv : -((n.natAbs : Int)) = n := by omega
      simp [hv]
      rw [abs_of_neg hn, neg_neg]
    · rw [show encVal (.num n) = 2 :: 0 :: encodeVarint n.natAbs by
        simp [encVal, hn]]
      simp only [List.cons_append, decVal, decodeVarint_encodeVarint]
      have hv : ((n.natAbs : Int)) = n := by omega
      simp [hv]
  | .str s, fuel + 1, _, r => by
    simp [encVal, decVal, decStr_encStr]
  | .arr xs, fuel + 1, h, r => by
    have hxs : jdepthA xs ≤ fuel := by
      simp only [jdepth] at h
      omega
    simp only [encVal, List.cons_append, List.append_assoc, decVal,
      decodeVarint_encodeVarint]
    rw [decListAux_encArr xs fuel hxs r]
  | .obj fs, fuel + 1, h, r => by
    have hfs : jdepthO fs ≤ fuel := by
      simp only [jdepth] at h
      omega
    simp only [encVal, List.cons_append, List.append_assoc, decVal,
      decodeVarint_encodeVarint]
    rw [decObjAux_encObj fs fuel hfs r]

theorem decListAux_encArr : ∀ (xs : List JValue) (fuel : Nat), jdepthA xs ≤ fuel →
    ∀ r, decListAux (decVal fuel) xs.length (encArr xs ++ r) = some (xs, r)
  | [], _, _, r => by simp [encArr, decListAux]
  | x :: xs, fuel, h, r => by
    have hx : jdepth x ≤ fuel := by
      simp only [jdepthA] at h
      omega
    have hxs : jdepthA xs ≤ fuel := by
      simp only [jdepthA] at h
      omega
    simp only [List.length_cons, encArr, List.append_assoc, decListAux,
      decVal_encVal x fuel hx, decListAux_encArr xs fuel hxs]

theorem decObjAux_encObj : ∀ (fs : List (String × JValue)) (fuel : Nat),
    jdepthO fs ≤ fuel →
    ∀ r, decObjAux (decVal fuel) fs.length (encObj fs ++ r) = some (fs, r)
  | [], _, _, r => by simp [encObj, decObjAux]
  | (k, v) :: fs, fuel, h, r => by
    have hv : jdepth v ≤ fuel := by
      simp only [jdepthO] at h
      omega
    have hfs : jdepthO fs ≤ fuel := by
      simp only [jdepthO] at h
      omega
    simp only [List.length_cons, encObj, List.append_assoc, decObjAux,
      decStr_encStr, decVal_encVal v fuel hv, decObjAux_encObj fs fuel hfs]

end

mutual

theorem jdepth_le_length : ∀ v : JValue, jdepth v ≤ (encVal v).length
  | .null => by simp [jdepth, encVal]
  | .bool b => by simp [jdepth, encVal]
  | .num n => by simp [jdepth, encVal]
  | .str s => by simp [jdepth, encVal]
  | .arr xs => by
    have h := jdepthA_le_length xs
    simp only [jdepth, encVal, List.length_cons, List.length_append]
    omega
  | .obj fs => by
    have h := jdepthO_le_length fs
    simp only [jdepth, encVal, List.length_cons, List.length_append]
    omega

theorem jdepthA_le_length : ∀ xs : List JValue, jdepthA xs ≤ (encArr xs).length
  | [] => by simp [jdepthA, encArr]
  | x :: xs => by
    have h1 := jdepth_le_length x
    have h2 := jdepthA_le_length xs
    simp only [jdepthA, encArr, List.length_append]
    omega

theorem jdepthO_le_length : ∀ fs : List (String × JValue),
    jdepthO fs ≤ (encObj fs).length
  | [] => by simp [jdepthO, encObj]
  | (k, v) :: fs => by
    have h1 := jdepth_le_length v
    have h2 := jdepthO_le_length fs
    simp only [jdepthO, encObj, List.length_append]
    omega

end

theorem jsonDecode_encVal (v : JValue) : jsonDecode (encVal v) = some v := by
  have h : decVal ((encVal v).length + 1) (encVal v ++ []) = some (v, []) :=
    decVal_encVal v ((encVal v).length + 1)
      (Nat.le_succ_of_le (jdepth_le_length v)) []
  rw [List.append_nil] at h
  simp [jsonDecode, h]

mutual

theorem mem_encVal_lt : ∀ v : JValue, ∀ b ∈ encVal v, b < 256
  | .null => by simp [encVal]
  | .bool b => by cases b <;> simp [encVal]
  | .num n => by
    intro b hb
    simp only [encVal, List.mem_cons] at hb
    rcases hb with hb | hb | hb
    · omega
    · subst hb
      split <;> omega
    · exact mem_encodeVarint_lt _ b hb
  | .str s => by
    intro b hb
    simp only [encVal, List.mem_cons] at hb
    rcases hb with hb | hb
    · omega
    · exact mem_encStr_lt s b hb
  | .arr xs => by
    intro b hb
    simp only [encVal, List.mem_cons, List.mem_append] at hb
    rcases hb with (hb | hb) | hb
    · omega
    · exact mem_encodeVarint_lt _ b hb
    · exact mem_encArr_lt xs b hb
  | .obj fs => by
    intro b hb
    simp only [encVal, List.mem_cons, List.mem_append] at hb
    rcases hb with (hb | hb) | hb
    · omega
    · exact mem_encodeVarint_lt _ b hb
    · exact mem_encObj_lt fs b hb

theorem mem_encArr_lt : ∀ xs : List JValue, ∀ b ∈ encArr xs, b < 256
  | [] => by simp [encArr]
  | x :: xs => by
    intro b hb
    simp only [encArr, List.mem_append] at hb
    rcases hb with hb | hb
    · exact mem_encVal_lt x b hb
    · exact mem_encArr_lt xs b hb

theorem mem_encObj_lt : ∀ fs : List (String × JValue), ∀ b ∈ encObj fs, b < 256
  | [] => by simp [encObj]
  | (k, v) :: fs => by
    intro b hb
    simp only [encObj, List.mem_append] at hb
    rcases hb with (hb | hb) | hb
    · exact mem_encStr_lt k b hb
    · exact mem_encVal_lt v b hb
    · exact mem_encObj_lt fs b hb

end

/-! ### Base64 / base64url

`base64UrlEncode` and `base64UrlDecode` are translated from the source
(src adapters/crypto module): encode is `btoa` followed by
`replaceAll('+','-')`, `replaceAll('/','_')` and stripping trailing `=`;
decode maps `-`/`_` back and calls `atob`.  `btoa`/`atob` themselves are
platform primitives, modelled here by RFC 4648 base64 over byte lists with
atob's forgiving-base64 behaviour (strip ASCII whitespace, strip up to two
trailing `=` when the length is a multiple of 4, reject other `=` placement
and out-of-alphabet characters). -/

def b64Alphabet : List Char :=
  "ABCDEFGHIJKLMNOPQRSTUVWXYZabcdefghijklmnopqrstuvwxyz0123456789+/".data

def b64Char (n : Nat) : Char := b64Alphabet.getD n 'A'

def idxOf (c : Char) : List Char → Option Nat
  | [] => none
  | d :: ds => if d = c then some 0 else (idxOf c ds).map (· + 1)

def b64Index (c : Char) : Option Nat := idxOf c b64Alphabet

def b64Sextets : List Nat → List Nat
  | b1 :: b2 :: b3 :: rest =>
    b1 / 4 :: (b1 % 4 * 16 + b2 / 16) :: (b2 % 16 * 4 + b3 / 64) :: (b3 % 64) ::
      b64Sextets rest
  | [b1, b2] => [b1 / 4, b1 % 4 * 16 + b2 / 16, b2 % 16 * 4]
  | [b1] => [b1 / 4, b1 % 4 * 16]
  | [] => []

def b64Pad (l : List Nat) : List Char :=
  if l.length % 3 = 1 then ['=', '='] else if l.length % 3 = 2 then ['='] else []

def btoaModel (l : List Nat) : List Char := (b64Sextets l).map b64Char ++ b64Pad l

def urlFwd (c : Char) : Char := if c = '+' then '-' else if c = '/' then '_' else c

def urlBack (c : Char) : Char := if c = '-' then '+' else if c = '_' then '/' else c

def dropTrailing (p : Char → Bool) (l : List Char) : List Char :=
  (l.reverse.dropWhile p).reverse

def base64UrlEncode (l : List Nat) : List Char :=
  dropTrailing (fun c => c = '=') ((btoaModel l).map urlFwd)

def isB64Ws (c : Char) : Bool :=
  c == ' ' || c == Char.ofNat 9 || c == Char.ofNat 10 || c == Char.ofNat 12 ||
    c == Char.ofNat 13

def stripPad (l : List Char) : List Char :=
  if l.length % 4 = 0 then
    match l.reverse with
    | c :: d :: rest =>
      if c = '=' then (if d = '=' then rest.reverse else (d :: rest).reverse) else l
    | [c] => if c = '=' then [] else l
    | [] => l
  else l

def b64Indices : List Char → Option (List Nat)
  | [] => some []
  | c :: cs =>
    match b64Index c, b64Indices cs with
    | some i, some is => some (i :: is)
    | _, _ => none

def unSextets : List Nat → Option (List Nat)
  | s1 :: s2 :: s3 :: s4 :: rest =>
    match unSextets rest with
    | some bs =>
      some ((s1 * 4 + s2 / 16) :: (s2 % 16 * 16 + s3 / 4) :: (s3 % 4 * 64 + s4) :: bs)
    | none => none
  | [s1, s2, s3] => some [s1 * 4 + s2 / 16, s2 % 16 * 16 + s3 / 4]
  | [s1, s2] => some [s1 * 4 + s2 / 16]
  | [_] => none
  | [] => some []

def atobModel (l : List Char) : Option (List Nat) :=
  match b64Indices (stripPad (l.filter (fun c => !(isB64Ws c)))) with
  | some is => unSextets is
  | none => none

def base64UrlDecode (l : List Char) : Option (List Nat) := atobModel (l.map urlBack)

theorem mem_b64Sextets_lt (l : List Nat) (hl : ∀ b ∈ l, b < 256) :
    ∀ s ∈ b64Sextets l, s < 64 := by
  induction l using b64Sextets.induct with
  | case1 b1 b2 b3 rest ih =>
    have h1 := hl b1 (by simp)
    have h2 := hl b2 (by simp)
    have h3 := hl b3 (by simp)
    intro s hs
    simp only [b64Sextets, List.mem_cons] at hs
    rcases hs with hs | hs | hs | hs | hs
    · omega
    · omega
    · omega
    · omega
    · exact ih (fun b hb => hl b (by simp [hb])) s hs
  | case2 b1 b2 =>
    have h1 := hl b1 (by simp)
    have h2 := hl b2 (by simp)
    intro s hs
    simp only [b64Sextets, List.mem_cons, List.not_mem_nil, or_false] at hs
    rcases hs with hs | hs | hs <;> omega
  | case3 b1 =>
    have h1 := hl b1 (by simp)
    intro s hs
    simp only [b64Sextets, List.mem_cons, List.not_mem_nil, or_false] at hs
    rcases hs with hs | hs <;> omega
  | case4 => simp [b64Sextets]

theorem unSextets_b64Sextets (l : List Nat) (hl : ∀ b ∈ l, b < 256) :
    unSextets (b64Sextets l) = some l := by
  induction l using b64Sextets.induct with
  | case1 b1 b2 b3 rest ih =>
    have h1 := hl b1 (by simp)
    have h2 := hl b2 (by simp)
    have h3 := hl b3 (by simp)
    have ihr := ih (fun b hb => hl b (by simp [hb]))
    simp only [b64Sextets, unSextets, ihr]
    have e1 : b1 / 4 * 4 + (b1 % 4 * 16 + b2 / 16) / 16 = b1 := by omega
    have e2 : (b1 % 4 * 16 + b2 / 16) % 16 * 16 + (b2 % 16 * 4 + b3 / 64) / 4 = b2 := by
      omega
    have e3 : (b2 % 16 * 4 + b3 / 64) % 4 * 64 + b3 % 64 = b3 := by omega
    rw [e1, e2, e3]
  | case2 b1 b2 =>
    have h1 := hl b1 (by simp)
    have h2 := hl b2 (by simp)
    simp only [b64Sextets, unSextets]
    have e1 : b1 / 4 * 4 + (b1 % 4 * 16 + b2 / 16) / 16 = b1 := by omega
    have e2 : (b1 % 4 * 16 + b2 / 16) % 16 * 16 + b2 % 16 * 4 / 4 = b2 := by omega
    rw [e1, e2]
  | case3 b1 =>
    have h1 := hl b1 (by simp)
    simp only [b64Sextets, unSextets]
    have e1 : b1 / 4 * 4 + b1 % 4 * 16 / 16 = b1 := by omega
    rw [e1]
  | case4 => simp [b64Sextets, unSextets]

theorem b64Index_b64Char : ∀ n, n < 64 → b64Index (b64Char n) = some n := by
  decide

theorem b64Char_ne_eq : ∀ n, n < 64 → b64Char n ≠ '=' := by decide

theorem urlBack_urlFwd_b64Char : ∀ n, n < 64 → urlBack (urlFwd (b64Char n)) = b64Char n := by
  decide

theorem urlFwd_b64Char_ne_eq : ∀ n, n < 64 → urlFwd (b64Char n) ≠ '=' := by decide

theorem urlFwd_b64Char_ne_dot : ∀ n, n < 64 → urlFwd (b64Char n) ≠ '.' := by decide

theorem isB64Ws_urlFwd_b64Char : ∀ n, n < 64 → isB64Ws (urlFwd (b64Char n)) = false := by
  decide

theorem b64Indices_map_b64Char (l : List Nat) (hl : ∀ s ∈ l, s < 64) :
    b64Indices (l.map b64Char) = some l := by
  induction l with
  | nil => simp [b64Indices]
  | cons s l ih =>
    simp only [List.map_cons, b64Indices,
      b64Index_b64Char s (hl s (by simp)), ih (fun x hx => hl x (by simp [hx]))]

theorem dropWhile_of_none (p : Char → Bool) (l : List Char)
    (h : ∀ c ∈ l, p c = false) : l.dropWhile p = l := by
  cases l with
  | nil => rfl
  | cons c cs => simp [List.dropWhile_cons, h c (by simp)]

theorem urlFwd_eq_self_eq : urlFwd '=' = '=' := by decide

theorem base64UrlEncode_eq (l : List Nat) (hl : ∀ b ∈ l, b < 256) :
    base64UrlEncode l = ((b64Sextets l).map b64Char).map urlFwd := by
  have hne : ∀ c ∈ ((b64Sextets l).map b64Char).map urlFwd, c ≠ '=' := by
    intro c hc
    simp only [List.map_map, List.mem_map] at hc
    obtain ⟨x, hx, hxs⟩ := hc
    subst hxs
    exact urlFwd_b64Char_ne_eq x (mem_b64Sextets_lt l hl x hx)
  have hpad : (b64Pad l).map urlFwd = b64Pad l := by
    unfold b64Pad
    split
    · simp [urlFwd_eq_self_eq]
    · split <;> simp [urlFwd_eq_self_eq]
  have hxs : (((b64Sextets l).map b64Char).map urlFwd).reverse.dropWhile
      (fun c => decide (c = '=')) =
      (((b64Sextets l).map b64Char).map urlFwd).reverse := by
    apply dropWhile_of_none
    intro c hc
    rw [List.mem_reverse] at hc
    simp [hne c hc]
  unfold base64UrlEncode btoaModel dropTrailing
  rw [List.map_append, hpad, List.reverse_append]
  have hdrop : ((b64Pad l).reverse ++
      (((b64Sextets l).map b64Char).map urlFwd).reverse).dropWhile
      (fun c => decide (c = '=')) =
      (((b64Sextets l).map b64Char).map urlFwd).reverse := by
    unfold b64Pad
    split
    · simpa [List.dropWhile_cons] using hxs
    · split
      · simpa [List.dropWhile_cons] using hxs
      · simpa using hxs
  rw [hdrop, List.reverse_reverse]

theorem stripPad_of_no_eq (l : List Char) (h : ∀ c ∈ l, c ≠ '=') :
    stripPad l = l := by
  unfold stripPad
  split
  · rcases hrev : l.reverse with _ | ⟨c, cs⟩
    · rfl
    · have hc : c ∈ l := by
        rw [← List.mem_reverse, hrev]
        simp
      rcases cs with _ | ⟨d, ds⟩
      · simp [if_neg (h c hc)]
      · simp [if_neg (h c hc)]
  · rfl

theorem base64UrlDecode_base64UrlEncode (l : List Nat) (hl : ∀ b ∈ l, b < 256) :
    base64UrlDecode (base64UrlEncode l) = some l := by
  rw [base64UrlEncode_eq l hl]
  unfold base64UrlDecode
  have hmap : ((((b64Sextets l).map b64Char).map urlFwd).map urlBack) =
      (b64Sextets l).map b64Char := by
    simp only [List.map_map]
    apply List.map_congr_left
    intro x hx
    exact urlBack_urlFwd_b64Char x (mem_b64Sextets_lt l hl x hx)
  rw [hmap]
  unfold atobModel
  have hfil : ((b64Sextets l).map b64Char).filter (fun c => !(isB64Ws c)) =
      (b64Sextets l).map b64Char := by
    rw [List.filter_eq_self]
    intro c hc
    simp only [List.mem_map] at hc
    obtain ⟨x, hx, hxs⟩ := hc
    subst hxs
    have h64 := mem_b64Sextets_lt l hl x hx
    have : isB64Ws (b64Char x) = false := by
      have := isB64Ws_urlFwd_b64Char x h64
      revert this
      unfold urlFwd
      split
      · intro hh
        simp_all [isB64Ws]
      · split
        · intro hh
          simp_all [isB64Ws]
        · exact fun hh => hh
    simp [this]
  rw [hfil]
  have hstrip : stripPad ((b64Sextets l).map b64Char) = (b64Sextets l).map b64Char := by
    apply stripPad_of_no_eq
    intro c hc
    simp only [List.mem_map] at hc
    obtain ⟨x, hx, hxs⟩ := hc
    subst hxs
    exact b64Char_ne_eq x (mem_b64Sextets_lt l hl x hx)
  rw [hstrip, b64Indices_map_b64Char _ (mem_b64Sextets_lt l hl)]
  exact unSextets_b64Sextets l hl

/-- The unpadded base64url alphabet of the token wire format:
`-` and `_` in place of `+` and `/`, no `=`. -/
def b64UrlAlphabet : List Char :=
  "ABCDEFGHIJKLMNOPQRSTUVWXYZabcdefghijklmnopqrstuvwxyz0123456789-_".data

theorem urlFwd_b64Char_mem_alphabet :
    ∀ n, n < 64 → urlFwd (b64Char n) ∈ b64UrlAlphabet := by decide

theorem mem_base64UrlEncode (l : List Nat) (hl : ∀ b ∈ l, b < 256) :
    ∀ c ∈ base64UrlEncode l, ∃ s, s < 64 ∧ c = urlFwd (b64Char s) := by
  rw [base64UrlEncode_eq l hl]
  intro c hc
  simp only [List.map_map, List.mem_map] at hc
  obtain ⟨x, hx, hxc⟩ := hc
  exact ⟨x, mem_b64Sextets_lt l hl x hx, hxc.symm⟩

/-! ### JavaScript string splitting -/

/-- Models JavaScript `String.prototype.split` with a single-character
separator (`token.split(SEPARATOR)` in `unseal`): empty components are
kept, and splitting the empty string yields one empty component. -/
def splitOn (sep : Char) : List Char → List (List Char)
  | [] => [[]]
  | c :: rest =>
    if c = sep then [] :: splitOn sep rest
    else
      match splitOn sep rest with
      | h :: t => (c :: h) :: t
      | [] => [[c]]

theorem splitOn_of_no_sep (sep : Char) (l : List Char) (h : sep ∉ l) :
    splitOn sep l = [l] := by
  induction l with
  | nil => rfl
  | cons c rest ih =>
    have hc : ¬(c = sep) := fun hcs => h (by simp [hcs])
    have hr : sep ∉ rest := fun hm => h (by simp [hm])
    simp [splitOn, hc, ih hr]

theorem splitOn_sep_append (sep : Char) (a b : List Char)
    (ha : sep ∉ a) (hb : sep ∉ b) :
    splitOn sep (a ++ sep :: b) = [a, b] := by
  induction a with
  | nil => simp [splitOn, splitOn_of_no_sep sep b hb]
  | cons c rest ih =>
    have hc : ¬(c = sep) := fun hcs => ha (by simp [hcs])
    have hr : sep ∉ rest := fun hm => ha (by simp [hm])
    simp [splitOn, hc, ih hr]

/-! ### JavaScript object-field operations -/

/-- Models the JS object build `{ ...payload, _exp: exp }` in `seal`: if
the key already exists its value is replaced in place (spread keeps the
first position, the later literal assignment overwrites the value);
otherwise the field is appended at the end. -/
def setField : List (String × JValue) → String → JValue → List (String × JValue)
  | [], k, v => [(k, v)]
  | (k2, v2) :: rest, k, v =>
    if k2 = k then (k, v) :: rest else (k2, v2) :: setField rest k v

def lookupField : List (String × JValue) → String → Option JValue
  | [], _ => none
  | (k2, v2) :: rest, k => if k2 = k then some v2 else lookupField rest k

inductive JsError where
  | typeError : JsError

/-- Models the JavaScript property read `data._exp` in `unseal` (the line
`const exp = data._exp`): reading a property of `null` throws a TypeError;
booleans, numbers, strings and arrays yield `undefined` (here `none`); an
object yields its own property value (or `undefined` when absent). -/
def jsMember : JValue → String → Except JsError (Option JValue)
  | .null, _ => .error .typeError
  | .obj fs, k => .ok (lookupField fs k)
  | _, _ => .ok none

/-- Models `delete data._exp` followed by `return data` in `unseal`. -/
def deleteExp : JValue → JValue
  | .obj fs => .obj (fs.filter (fun kv => kv.1 ≠ "_exp"))
  | v => v

theorem lookupField_setField (fs : List (String × JValue)) (k : String) (v : JValue) :
    lookupField (setField fs k v) k = some v := by
  induction fs with
  | nil => simp [setField, lookupField]
  | cons kv rest ih =>
    obtain ⟨k2, v2⟩ := kv
    by_cases h : k2 = k
    · simp [setField, h, lookupField]
    · simp [setField, h, lookupField, ih]

theorem filter_setField (fs : List (String × JValue)) (k : String) (v : JValue) :
    (setField fs k v).filter (fun kv => kv.1 ≠ k) =
      fs.filter (fun kv => kv.1 ≠ k) := by
  induction fs with
  | nil => simp [setField]
  | cons kv rest ih =>
    obtain ⟨k2, v2⟩ := kv
    by_cases h : k2 = k
    · simp [setField, h]
    · simp only [setField, if_neg h, List.filter_cons]
      rw [ih]

theorem filter_eq_self_of_key_not_mem (fs : List (String × JValue)) (k : String)
    (h : k ∉ fs.map Prod.fst) : fs.filter (fun kv => kv.1 ≠ k) = fs := by
  induction fs with
  | nil => rfl
  | cons kv rest ih =>
    obtain ⟨k2, v2⟩ := kv
    have hk2 : k2 ≠ k := by
      intro he
      exact h (by simp [he])
    have hr : k ∉ rest.map Prod.fst := fun hm => h (by simp [hm])
    simp only [List.filter_cons]
    rw [if_pos (by simp [hk2]), ih hr]

/-! ### The envelope codec: seal and unseal -/

def SEPARATOR : Char := '.'

def IV_LENGTH : Nat := 12

def TTL_DEFAULT : Int := 300

/-- `seal` from the source.  `now` models the `Date.now()` reading and `iv`
models the fresh 12-byte `crypto.getRandomValues` draw; both are explicit
parameters of the model (the code's only impure inputs). -/
def «seal» (payload : List (String × JValue)) (secret : String) (ttlSeconds : Int)
    (now : Int) (iv : List Nat) : String :=
  let exp : Int := now + ttlSeconds * 1000
  let data := setField payload "_exp" (.num exp)
  let plaintext := encVal (.obj data)
  let ciphertext := encryptGCM (deriveKey secret) iv plaintext
  String.mk (base64UrlEncode iv ++ SEPARATOR :: base64UrlEncode ciphertext)

/-- The tail of `unseal` after a successful decrypt: JSON-parse the
plaintext, read `_exp` (which can throw on `null`), check the type and the
expiration, strip `_exp`, return the payload. -/
def unsealParse (pt : List Nat) (now : Int) : Except JsError (Option JValue) :=
  match jsonDecode pt with
  | none => .ok none
  | some data =>
    match jsMember data "_exp" with
    | .error e => .error e
    | .ok expOpt =>
      match expOpt with
      | some (.num e) => if e < now then .ok none else .ok (some (deleteExp data))
      | _ => .ok none

/-- `unseal` from the source.  `now` models the `Date.now()` reading at the
expiration check.  The `Except` layer records whether the JavaScript code
returns normally (`.ok`, with `none` as the uniform invalid sentinel) or
throws (`.error`). -/
def «unseal» (token : Option String) (secret : String) (now : Int) :
    Except JsError (Option JValue) :=
  match token with
  | none => .ok none
  | some t =>
    if t = "" ∨ secret = "" then .ok none
    else
      match splitOn SEPARATOR t.data with
      | [ivB64, ctB64] =>
        match base64UrlDecode ivB64, base64UrlDecode ctB64 with
        | some iv, some ct =>
          match decryptGCM (deriveKey secret) iv ct with
          | some pt => unsealParse pt now
          | none => .ok none
        | _, _ => .ok none
      | _ => .ok none

/-- Any token that the idealized AES-GCM decrypts to plaintext `pt` under
`secret`: `seal` outputs are exactly `mkToken` applied to the serialized
envelope. -/
def mkToken (secret : String) (iv : List Nat) (pt : List Nat) : String :=
  String.mk (base64UrlEncode iv ++ SEPARATOR ::
    base64UrlEncode (encryptGCM (deriveKey secret) iv pt))

theorem seal_eq_mkToken (payload : List (String × JValue)) (secret : String)
    (ttlSeconds now : Int) (iv : List Nat) :
    «seal» payload secret ttlSeconds now iv =
      mkToken secret iv
        (encVal (.obj (setField payload "_exp" (.num (now + ttlSeconds * 1000))))) := rfl

theorem data_mk (l : List Char) : (String.mk l).data = l := rfl

theorem not_sep_mem_base64UrlEncode (l : List Nat) (hl : ∀ b ∈ l, b < 256) :
    SEPARATOR ∉ base64UrlEncode l := by
  intro hm
  obtain ⟨s, hs64, hc⟩ := mem_base64UrlEncode l hl _ hm
  exact urlFwd_b64Char_ne_dot s hs64 hc.symm

theorem mkToken_ne_empty (secret : String) (iv pt : List Nat) :
    mkToken secret iv pt ≠ "" := by
  intro h
  have h2 := congrArg String.data h
  simp only [mkToken, data_mk] at h2
  simp at h2

theorem unseal_mkToken (secret : String) (iv pt : List Nat) (now : Int)
    (hs : secret ≠ "") (hiv : ∀ b ∈ iv, b < 256) (hpt : ∀ b ∈ pt, b < 256) :
    «unseal» (some (mkToken secret iv pt)) secret now = unsealParse pt now := by
  have hct : ∀ b ∈ encryptGCM (deriveKey secret) iv pt, b < 256 :=
    mem_encryptGCM_lt _ _ _ hpt
  have hcond : ¬(mkToken secret iv pt = "" ∨ secret = "") := by
    push_neg
    exact ⟨mkToken_ne_empty secret iv pt, hs⟩
  simp only [«unseal»]
  rw [if_neg hcond]
  simp only [mkToken, data_mk,
    splitOn_sep_append SEPARATOR _ _ (not_sep_mem_base64UrlEncode iv hiv)
      (not_sep_mem_base64UrlEncode _ hct),
    base64UrlDecode_base64UrlEncode iv hiv,
    base64UrlDecode_base64UrlEncode _ hct,
    decryptGCM_encryptGCM]

theorem unseal_mkToken_wrong_secret (secret1 secret2 : String) (iv pt : List Nat)
    (now : Int) (hs2 : secret2 ≠ "") (hne : secret2 ≠ secret1)
    (hiv : ∀ b ∈ iv, b < 256) (hpt : ∀ b ∈ pt, b < 256) :
    «unseal» (some (mkToken secret1 iv pt)) secret2 now = .ok none := by
  have hct : ∀ b ∈ encryptGCM (deriveKey secret1) iv pt, b < 256 :=
    mem_encryptGCM_lt _ _ _ hpt
  have hcond : ¬(mkToken secret1 iv pt = "" ∨ secret2 = "") := by
    push_neg
    exact ⟨mkToken_ne_empty secret1 iv pt, hs2⟩
  simp only [«unseal»]
  rw [if_neg hcond]
  simp only [mkToken, data_mk,
    splitOn_sep_append SEPARATOR _ _ (not_sep_mem_base64UrlEncode iv hiv)
      (not_sep_mem_base64UrlEncode _ hct),
    base64UrlDecode_base64UrlEncode iv hiv,
    base64UrlDecode_base64UrlEncode _ hct,
    decryptGCM_wrong_key (deriveKey secret1) (deriveKey secret2) iv iv pt hne]

theorem unsealParse_envelope (fs : List (String × JValue)) (e now : Int) :
    unsealParse (encVal (.obj (setField fs "_exp" (.num e)))) now =
      if e < now then Except.ok Option.none
      else Except.ok (some (.obj (fs.filter (fun kv => kv.1 ≠ "_exp")))) := by
  unfold unsealParse
  rw [jsonDecode_encVal]
  simp only [jsMember, lookupField_setField]
  by_cases h : e < now
  · simp [h]
  · rw [if_neg h, if_neg h]
    simp only [deleteExp]
    rw [filter_setField]

/-! ### Cookie option mapping (the adapters module) -/

inductive Adapter where
  | next : Adapter
  | express : Adapter
  | hono : Adapter
  | standard : Adapter
deriving DecidableEq

inductive SameSiteVal where
  | lax : SameSiteVal
  | strict : SameSiteVal
  | none : SameSiteVal
deriving DecidableEq

/-- The `CookieOptions` interface: every field optional (`none` = absent). -/
structure CookieOptions where
  name : Option String := Option.none
  value : Option String := Option.none
  domain : Option String := Option.none
  path : Option String := Option.none
  maxAge : Option Int := Option.none
  httpOnly : Option Bool := Option.none
  secure : Option Bool := Option.none
  sameSite : Option SameSiteVal := Option.none
deriving DecidableEq

/-- The overrides argument `Partial<CookieOptions> & \x7b ttlSeconds?: number \x7d`. -/
structure CookieOverrides extends CookieOptions where
  ttlSeconds : Option Int := Option.none
deriving DecidableEq

def DEFAULTS : CookieOptions :=
  { httpOnly := some true, secure := some true, sameSite := some .lax,
    path := some "/" }

/-- Field-level semantics of the object spread `{ ...DEFAULTS, ...rest }`:
a field present in `rest` wins, otherwise the default applies. -/
def mergeField {α : Type} (o d : Option α) : Option α :=
  match o with
  | some v => some v
  | Option.none => d

def toMaxAge (ttlSeconds : Int) (adapter : Adapter) : Int :=
  match adapter with
  | .express => ttlSeconds * 1000
  | .next | .hono | .standard => ttlSeconds

def getCookieOptions (adapter : Adapter) (overrides : Option CookieOverrides) :
    CookieOptions :=
  let o := overrides.getD {}
  let opts : CookieOptions :=
    { name := mergeField o.name DEFAULTS.name
      value := mergeField o.value DEFAULTS.value
      domain := mergeField o.domain DEFAULTS.domain
      path := mergeField o.path DEFAULTS.path
      maxAge := mergeField o.maxAge DEFAULTS.maxAge
      httpOnly := mergeField o.httpOnly DEFAULTS.httpOnly
      secure := mergeField o.secure DEFAULTS.secure
      sameSite := mergeField o.sameSite DEFAULTS.sameSite }
  match o.ttlSeconds with
  | some t => { opts with maxAge := some (toMaxAge t adapter) }
  | Option.none => opts

/-! ### Supporting lemmas for the claims -/

theorem unsealParse_obj (fs : List (String × JValue)) (now : Int) :
    unsealParse (encVal (.obj fs)) now =
      match lookupField fs "_exp" with
      | some (.num e) =>
        if e < now then Except.ok Option.none
        else Except.ok (some (.obj (fs.filter (fun kv => kv.1 ≠ "_exp"))))
      | _ => Except.ok Option.none := by
  unfold unsealParse
  rw [jsonDecode_encVal]
  simp only [jsMember]
  rcases lookupField fs "_exp" with _ | v
  · rfl
  · cases v <;> simp [deleteExp]

theorem unseal_parts_ne_two (t : String) (S : String) (now : Int)
    (h : (splitOn SEPARATOR t.data).length ≠ 2) :
    «unseal» (some t) S now = .ok none := by
  simp only [«unseal»]
  split
  · rfl
  · rcases hsp : splitOn SEPARATOR t.data with _ | ⟨a, _ | ⟨b, _ | ⟨c, rest⟩⟩⟩
    · rfl
    · rfl
    · rw [hsp] at h
      simp at h
    · rfl

theorem mem_setField_eq (fs : List (String × JValue)) (k : String) (x w : JValue)
    (hdup : (fs.map Prod.fst).Nodup) (h : (k, w) ∈ setField fs k x) : w = x := by
  induction fs with
  | nil =>
    simp [setField] at h
    exact h
  | cons kv rest ih =>
    obtain ⟨k2, v2⟩ := kv
    simp only [List.map_cons, List.nodup_cons] at hdup
    by_cases hk : k2 = k
    · subst hk
      simp only [setField, if_true, List.mem_cons, Prod.mk.injEq, true_and] at h
      rcases h with h | h
      · exact h
      · exfalso
        exact hdup.1 (List.mem_map.mpr ⟨(k2, w), h, rfl⟩)
    · simp only [setField, if_neg hk, List.mem_cons, Prod.mk.injEq] at h
      rcases h with ⟨h1, h2⟩ | h
      · exact absurd h1.symm hk
      · exact ih hdup.2 h

theorem key_not_mem_filter (fs : List (String × JValue)) (k : String) :
    k ∉ (fs.filter (fun kv => kv.1 ≠ k)).map Prod.fst := by
  intro h
  obtain ⟨kv, hmem, hfst⟩ := List.mem_map.mp h
  have := List.of_mem_filter hmem
  simp [hfst] at this

theorem toMaxAge_eq_ite (t : Int) (adapter : Adapter) :
    toMaxAge t adapter = if adapter = .express then t * 1000 else t := by
  cases adapter <;> rfl

theorem mergeField_none {α : Type} (o : Option α) : mergeField o Option.none = o := by
  cases o <;> rfl

theorem count_sep_token (a b : List Char) (ha : SEPARATOR ∉ a) (hb : SEPARATOR ∉ b) :
    List.count SEPARATOR (a ++ SEPARATOR :: b) = 1 := by
  rw [List.count_append, List.count_cons]
  rw [List.count_eq_zero.mpr ha, List.count_eq_zero.mpr hb]
  simp

theorem getCookieOptions_ttl (adapter : Adapter) (o : CookieOverrides) (t : Int)
    (h : o.ttlSeconds = some t) :
    getCookieOptions adapter (some o) =
      { name := mergeField o.name Option.none,
        value := mergeField o.value Option.none,
        domain := mergeField o.domain Option.none,
        path := mergeField o.path (some "/"),
        maxAge := some (toMaxAge t adapter),
        httpOnly := mergeField o.httpOnly (some true),
        secure := mergeField o.secure (some true),
        sameSite := mergeField o.sameSite (some SameSiteVal.lax) } := by
  unfold getCookieOptions
  simp only [Option.getD_some]
  rw [h]
  rfl

theorem getCookieOptions_nottl (adapter : Adapter) (o : CookieOverrides)
    (h : o.ttlSeconds = Option.none) :
    getCookieOptions adapter (some o) =
      { name := mergeField o.name Option.none,
        value := mergeField o.value Option.none,
        domain := mergeField o.domain Option.none,
        path := mergeField o.path (some "/"),
        maxAge := mergeField o.maxAge Option.none,
        httpOnly := mergeField o.httpOnly (some true),
        secure := mergeField o.secure (some true),
        sameSite := mergeField o.sameSite (some SameSiteVal.lax) } := by
  unfold getCookieOptions
  simp only [Option.getD_some]
  rw [h]
  rfl

/-! ### The claims -/

/-- Claim C1: round trip — for every JSON-serializable payload whose keys do
not include the reserved expiration field, every non-empty secret and every
positive ttlSeconds, unsealing the sealed token with the same secret before
the expiration instant returns a mapping equal to the payload, and the
reserved expiration field does not appear in the returned mapping. -/
theorem C1_round_trip (P : List (String × JValue)) (S : String)
    (T now now2 : Int) (iv : List Nat)
    (hS : S ≠ "") (hT : 0 < T) (hP : "_exp" ∉ P.map Prod.fst)
    (hiv : ∀ b ∈ iv, b < 256) (hnow : now2 < now + T * 1000) :
    «unseal» (some («seal» P S T now iv)) S now2 =
      Except.ok (some (.obj P)) ∧ "_exp" ∉ P.map Prod.fst := by
  constructor
  · rw [seal_eq_mkToken,
      unseal_mkToken S iv _ now2 hS hiv (mem_encVal_lt _),
      unsealParse_envelope, if_neg (by omega),
      filter_eq_self_of_key_not_mem P "_exp" hP]
  · exact hP

set_option maxRecDepth 100000 in
theorem C1_round_trip_witness :
    «unseal»
      (some («seal» [("id", JValue.str "user-1"), ("role", JValue.str "admin")]
        "test-secret-at-least-32-chars" 60 0 [0, 1, 2, 3, 4, 5, 6, 7, 8, 9, 10, 11]))
      "test-secret-at-least-32-chars" 1 =
      Except.ok (some (JValue.obj
        [("id", JValue.str "user-1"), ("role", JValue.str "admin")])) :=
  (C1_round_trip [("id", JValue.str "user-1"), ("role", JValue.str "admin")]
    "test-secret-at-least-32-chars" 60 0 1 [0, 1, 2, 3, 4, 5, 6, 7, 8, 9, 10, 11]
    (by decide) (by decide) (by decide) (by decide) (by decide)).1

set_option maxRecDepth 100000 in
/-- Claim C2 (code-bug demonstration): `unseal` is specified never to raise
and to collapse every invalid input to the uniform `null` sentinel, but when
decryption succeeds and the plaintext is the JSON text `null`, the
subsequent property read `data._exp` throws an uncaught TypeError — the
model returns `.error` instead of the `.ok none` sentinel. -/
theorem C2_null_plaintext_throws :
    «unseal» (some (mkToken "c2-secret" [0] (encVal JValue.null))) "c2-secret" 0 =
      Except.error JsError.typeError := rfl

set_option maxRecDepth 100000 in
/-- Claim C3 counterexample: a token whose embedded expiration equals the
current time at the unseal check is accepted and its payload returned, not
treated as already expired — refuting the claimed strict-boundary
rejection (the code rejects only `exp < now`). -/
theorem C3_boundary_accepts :
    «unseal» (some («seal» [] "c3-secret" 1 0 [3])) "c3-secret" 1000 =
      Except.ok (some (JValue.obj [])) := rfl

/-- Claim C3 (amended): `unseal` returns the invalid sentinel when the
embedded expiration field is absent, non-numeric, or strictly less than the
current time; at the exact boundary instant (expiration equal to the
current time) the token is still accepted. -/
theorem C3_expiration_check (S : String) (iv : List Nat)
    (fs : List (String × JValue)) (now : Int)
    (hS : S ≠ "") (hiv : ∀ b ∈ iv, b < 256) :
    (lookupField fs "_exp" = Option.none →
      «unseal» (some (mkToken S iv (encVal (.obj fs)))) S now =
        Except.ok Option.none) ∧
    (∀ v, lookupField fs "_exp" = some v → (∀ e : Int, v ≠ .num e) →
      «unseal» (some (mkToken S iv (encVal (.obj fs)))) S now =
        Except.ok Option.none) ∧
    (∀ e : Int, lookupField fs "_exp" = some (.num e) → e < now →
      «unseal» (some (mkToken S iv (encVal (.obj fs)))) S now =
        Except.ok Option.none) ∧
    (∀ e : Int, lookupField fs "_exp" = some (.num e) → e = now →
      «unseal» (some (mkToken S iv (encVal (.obj fs)))) S now =
        Except.ok (some (.obj (fs.filter (fun kv => kv.1 ≠ "_exp"))))) := by
  have hu := unseal_mkToken S iv (encVal (.obj fs)) now hS hiv (mem_encVal_lt _)
  rw [unsealParse_obj] at hu
  refine ⟨?_, ?_, ?_, ?_⟩
  · intro h
    rw [hu, h]
  · intro v hv hnum
    rw [hu, hv]
    cases v with
    | num e => exact absurd rfl (hnum e)
    | null => rfl
    | bool b => rfl
    | str s => rfl
    | arr xs => rfl
    | obj fs2 => rfl
  · intro e he hlt
    rw [hu, he]
    simp [hlt]
  · intro e he heq
    have hnot : ¬e < now := by omega
    rw [hu, he]
    simp [hnot]

set_option maxRecDepth 100000 in
theorem C3_expiration_check_witness :
    «unseal» (some (mkToken "c3w" [1] (encVal (.obj [("a", JValue.null)])))) "c3w" 7 =
      Except.ok Option.none :=
  (C3_expiration_check "c3w" [1] [("a", JValue.null)] 7 (by decide) (by decide)).1 rfl

set_option maxRecDepth 100000 in
/-- Claim C4 (code-bug demonstration): after a successful decrypt, a
plaintext that does not parse, or parses to a number, string, boolean or
array, yields the invalid sentinel — but the non-mapping JSON value `null`,
which the claim says must also yield the sentinel, instead makes the
property read `data._exp` throw a TypeError. -/
theorem C4_non_mapping_handling :
    «unseal» (some (mkToken "c4-secret" [4] [99])) "c4-secret" 0 =
      Except.ok Option.none ∧
    «unseal» (some (mkToken "c4-secret" [4] (encVal (.num 7)))) "c4-secret" 0 =
      Except.ok Option.none ∧
    «unseal» (some (mkToken "c4-secret" [4] (encVal (.str "x")))) "c4-secret" 0 =
      Except.ok Option.none ∧
    «unseal» (some (mkToken "c4-secret" [4] (encVal (.bool true)))) "c4-secret" 0 =
      Except.ok Option.none ∧
    «unseal» (some (mkToken "c4-secret" [4] (encVal (.arr [JValue.num 1]))))
      "c4-secret" 0 = Except.ok Option.none ∧
    «unseal» (some (mkToken "c4-secret" [4] (encVal JValue.null))) "c4-secret" 0 =
      Except.error JsError.typeError :=
  ⟨rfl, rfl, rfl, rfl, rfl, rfl⟩

/-- Claim C5: wrong-key rejection — for every payload, ttlSeconds and pair
of distinct secrets, unsealing a token sealed under the first secret with
the second secret returns the invalid sentinel. -/
theorem C5_wrong_key (P : List (String × JValue)) (S1 S2 : String)
    (T now now2 : Int) (iv : List Nat)
    (hne : S1 ≠ S2) (hiv : ∀ b ∈ iv, b < 256) :
    «unseal» (some («seal» P S1 T now iv)) S2 now2 = Except.ok Option.none := by
  by_cases h2 : S2 = ""
  · subst h2
    simp [«unseal»]
  · rw [seal_eq_mkToken]
    exact unseal_mkToken_wrong_secret S1 S2 iv _ now2 h2
      (fun h => hne h.symm) hiv (mem_encVal_lt _)

set_option maxRecDepth 100000 in
theorem C5_wrong_key_witness :
    «unseal» (some («seal» [("x", JValue.num 1)] "secret-one" 60 0 [9, 8, 7]))
      "secret-two" 0 = Except.ok Option.none :=
  C5_wrong_key [("x", JValue.num 1)] "secret-one" "secret-two" 60 0 0 [9, 8, 7]
    (by decide) (by decide)

/-- Claim C6: malformed-input rejection — an absent token, the empty token,
an empty secret, and any token whose split on the separator yields a number
of components other than exactly two (such as a token with no dot or with
two dots) all map to the invalid sentinel. -/
theorem C6_malformed_rejection (S : String) (now : Int) :
    «unseal» Option.none S now = Except.ok Option.none ∧
    «unseal» (some "") S now = Except.ok Option.none ∧
    (∀ t : Option String, «unseal» t "" now = Except.ok Option.none) ∧
    «unseal» (some "not-dot-separated") S now = Except.ok Option.none ∧
    «unseal» (some "a.b.c") S now = Except.ok Option.none ∧
    (∀ t : String, (splitOn SEPARATOR t.data).length ≠ 2 →
      «unseal» (some t) S now = Except.ok Option.none) := by
  refine ⟨rfl, ?_, ?_, ?_, ?_, fun t h => unseal_parts_ne_two t S now h⟩
  · simp [«unseal»]
  · intro t
    cases t with
    | none => rfl
    | some t2 =>
      simp [«unseal»]
  · exact unseal_parts_ne_two _ S now (by decide)
  · exact unseal_parts_ne_two _ S now (by decide)

theorem C6_malformed_rejection_witness :
    «unseal» (some "a.b.c") "w6" 3 = Except.ok Option.none :=
  (C6_malformed_rejection "w6" 3).2.2.2.2.1

/-- Claim C7: reserved-field collision — when the payload already carries a
field named `_exp`, seal silently overwrites it with the computed expiration
(every `_exp` field of the encrypted envelope holds the computed instant,
not the caller's value), unseal strips `_exp` before returning, so the
caller's original `_exp` value is absent from the result, and neither
direction raises an error. -/
theorem C7_reserved_field_collision (P : List (String × JValue)) (S : String)
    (T now now2 : Int) (iv : List Nat)
    (hS : S ≠ "") (hiv : ∀ b ∈ iv, b < 256)
    (hdup : (P.map Prod.fst).Nodup) (hmem : "_exp" ∈ P.map Prod.fst)
    (hfresh : now2 < now + T * 1000) :
    (∀ w, ("_exp", w) ∈ setField P "_exp" (.num (now + T * 1000)) →
      w = .num (now + T * 1000)) ∧
    «unseal» (some («seal» P S T now iv)) S now2 =
      Except.ok (some (.obj (P.filter (fun kv => kv.1 ≠ "_exp")))) ∧
    "_exp" ∉ (P.filter (fun kv => kv.1 ≠ "_exp")).map Prod.fst := by
  refine ⟨fun w hw => mem_setField_eq P "_exp" _ w hdup hw, ?_,
    key_not_mem_filter P "_exp"⟩
  rw [seal_eq_mkToken,
    unseal_mkToken S iv _ now2 hS hiv (mem_encVal_lt _),
    unsealParse_envelope, if_neg (by omega)]

set_option maxRecDepth 100000 in
theorem C7_reserved_field_collision_witness :
    «unseal»
      (some («seal» [("_exp", JValue.num 999), ("a", JValue.bool true)]
        "c7-secret" 60 0 [5, 6])) "c7-secret" 3 =
      Except.ok (some (JValue.obj [("a", JValue.bool true)])) :=
  (C7_reserved_field_collision [("_exp", JValue.num 999), ("a", JValue.bool true)]
    "c7-secret" 60 0 3 [5, 6] (by decide) (by decide) (by decide) (by decide)
    (by decide)).2.1

/-- Claim C8: token wire format — every seal output splits on the single
`.` separator into exactly two components (the separator occurs exactly
once), every character of both components lies in the unpadded base64url
alphabet, and base64url-decoding the first component yields exactly the
12-byte initialization vector. -/
theorem C8_wire_format (P : List (String × JValue)) (S : String)
    (T now : Int) (iv : List Nat)
    (hiv : ∀ b ∈ iv, b < 256) (hlen : iv.length = IV_LENGTH) :
    ∃ p1 p2 : List Char,
      splitOn SEPARATOR («seal» P S T now iv).data = [p1, p2] ∧
      List.count SEPARATOR («seal» P S T now iv).data = 1 ∧
      (∀ c ∈ p1, c ∈ b64UrlAlphabet) ∧ (∀ c ∈ p2, c ∈ b64UrlAlphabet) ∧
      base64UrlDecode p1 = some iv ∧ iv.length = 12 := by
  have hct : ∀ b ∈ encryptGCM (deriveKey S) iv
      (encVal (.obj (setField P "_exp" (.num (now + T * 1000))))), b < 256 :=
    mem_encryptGCM_lt _ _ _ (mem_encVal_lt _)
  have hdata : («seal» P S T now iv).data =
      base64UrlEncode iv ++ SEPARATOR :: base64UrlEncode
        (encryptGCM (deriveKey S) iv
          (encVal (.obj (setField P "_exp" (.num (now + T * 1000)))))) := rfl
  have halpha : ∀ (l : List Nat), (∀ b ∈ l, b < 256) →
      ∀ c ∈ base64UrlEncode l, c ∈ b64UrlAlphabet := by
    intro l hl c hc
    obtain ⟨s, hs, hc2⟩ := mem_base64UrlEncode l hl c hc
    subst hc2
    exact urlFwd_b64Char_mem_alphabet s hs
  refine ⟨base64UrlEncode iv, base64UrlEncode _, ?_, ?_,
    halpha iv hiv, halpha _ hct, base64UrlDecode_base64UrlEncode iv hiv, hlen⟩
  · rw [hdata]
    exact splitOn_sep_append SEPARATOR _ _ (not_sep_mem_base64UrlEncode iv hiv)
      (not_sep_mem_base64UrlEncode _ hct)
  · rw [hdata]
    exact count_sep_token _ _ (not_sep_mem_base64UrlEncode iv hiv)
      (not_sep_mem_base64UrlEncode _ hct)

set_option maxRecDepth 100000 in
theorem C8_wire_format_witness :
    ∃ p1 p2 : List Char,
      splitOn SEPARATOR
        («seal» [] "c8-secret" 300 0 [0, 1, 2, 3, 4, 5, 6, 7, 8, 9, 10, 11]).data =
        [p1, p2] ∧
      List.count SEPARATOR
        («seal» [] "c8-secret" 300 0 [0, 1, 2, 3, 4, 5, 6, 7, 8, 9, 10, 11]).data = 1 ∧
      (∀ c ∈ p1, c ∈ b64UrlAlphabet) ∧ (∀ c ∈ p2, c ∈ b64UrlAlphabet) ∧
      base64UrlDecode p1 = some [0, 1, 2, 3, 4, 5, 6, 7, 8, 9, 10, 11] ∧
      ([0, 1, 2, 3, 4, 5, 6, 7, 8, 9, 10, 11] : List Nat).length = 12 :=
  C8_wire_format [] "c8-secret" 300 0 [0, 1, 2, 3, 4, 5, 6, 7, 8, 9, 10, 11]
    (by decide) (by decide)

/-- Claim C9: cookie option defaults and ttl conversion — getCookieOptions
returns the defaults httpOnly true, secure true, sameSite lax, path "/"
unless overridden, and a supplied ttlSeconds sets maxAge to
ttlSeconds * 1000 for the express adapter and to ttlSeconds unchanged for
next, hono and standard. -/
theorem C9_cookie_defaults (adapter : Adapter) (o : CookieOverrides) :
    getCookieOptions adapter Option.none = DEFAULTS ∧
    (o.httpOnly = Option.none →
      (getCookieOptions adapter (some o)).httpOnly = some true) ∧
    (o.secure = Option.none →
      (getCookieOptions adapter (some o)).secure = some true) ∧
    (o.sameSite = Option.none →
      (getCookieOptions adapter (some o)).sameSite = some SameSiteVal.lax) ∧
    (o.path = Option.none →
      (getCookieOptions adapter (some o)).path = some "/") ∧
    (∀ t : Int, o.ttlSeconds = some t →
      (getCookieOptions adapter (some o)).maxAge =
        some (if adapter = Adapter.express then t * 1000 else t)) := by
  refine ⟨rfl, ?_, ?_, ?_, ?_, ?_⟩
  · intro h
    rcases hT : o.ttlSeconds with _ | t
    · rw [getCookieOptions_nottl adapter o hT]
      simp [mergeField, h]
    · rw [getCookieOptions_ttl adapter o t hT]
      simp [mergeField, h]
  · intro h
    rcases hT : o.ttlSeconds with _ | t
    · rw [getCookieOptions_nottl adapter o hT]
      simp [mergeField, h]
    · rw [getCookieOptions_ttl adapter o t hT]
      simp [mergeField, h]
  · intro h
    rcases hT : o.ttlSeconds with _ | t
    · rw [getCookieOptions_nottl adapter o hT]
      simp [mergeField, h]
    · rw [getCookieOptions_ttl adapter o t hT]
      simp [mergeField, h]
  · intro h
    rcases hT : o.ttlSeconds with _ | t
    · rw [getCookieOptions_nottl adapter o hT]
      simp [mergeField, h]
    · rw [getCookieOptions_ttl adapter o t hT]
      simp [mergeField, h]
  · intro t hT
    rw [getCookieOptions_ttl adapter o t hT]
    simp [toMaxAge_eq_ite]

set_option maxRecDepth 100000 in
theorem C9_cookie_defaults_witness :
    (getCookieOptions Adapter.express (some { ttlSeconds := some 300 })).maxAge =
      some 300000 := by
  have h := (C9_cookie_defaults Adapter.express { ttlSeconds := some 300 }).2.2.2.2.2
    300 rfl
  simpa using h

/-- Claim C10 (implicit): override precedence — a supplied ttlSeconds wins
over an explicit maxAge override (the converted value is used regardless of
the supplied maxAge); a maxAge supplied without ttlSeconds is passed through
unconverted for every adapter; and all other override fields are merged over
the defaults unchanged. -/
theorem C10_override_precedence (adapter : Adapter) (o : CookieOverrides) :
    (∀ t : Int, o.ttlSeconds = some t →
      (getCookieOptions adapter (some o)).maxAge = some (toMaxAge t adapter)) ∧
    (o.ttlSeconds = Option.none →
      (getCookieOptions adapter (some o)).maxAge = o.maxAge) ∧
    (getCookieOptions adapter (some o)).name = o.name ∧
    (getCookieOptions adapter (some o)).value = o.value ∧
    (getCookieOptions adapter (some o)).domain = o.domain ∧
    (getCookieOptions adapter (some o)).path = mergeField o.path (some "/") ∧
    (getCookieOptions adapter (some o)).httpOnly = mergeField o.httpOnly (some true) ∧
    (getCookieOptions adapter (some o)).secure = mergeField o.secure (some true) ∧
    (getCookieOptions adapter (some o)).sameSite =
      mergeField o.sameSite (some SameSiteVal.lax) := by
  refine ⟨?_, ?_, ?_, ?_, ?_, ?_, ?_, ?_, ?_⟩
  · intro t hT
    rw [getCookieOptions_ttl adapter o t hT]
  · intro hT
    rw [getCookieOptions_nottl adapter o hT]
    exact mergeField_none o.maxAge
  all_goals
    rcases hT : o.ttlSeconds with _ | t
  · rw [getCookieOptions_nottl adapter o hT]
    exact mergeField_none o.name
  · rw [getCookieOptions_ttl adapter o t hT]
    exact mergeField_none o.name
  · rw [getCookieOptions_nottl adapter o hT]
    exact mergeField_none o.value
  · rw [getCookieOptions_ttl adapter o t hT]
    exact mergeField_none o.value
  · rw [getCookieOptions_nottl adapter o hT]
    exact mergeField_none o.domain
  · rw [getCookieOptions_ttl adapter o t hT]
    exact mergeField_none o.domain
  · rw [getCookieOptions_nottl adapter o hT]
  · rw [getCookieOptions_ttl adapter o t hT]
  · rw [getCookieOptions_nottl adapter o hT]
  · rw [getCookieOptions_ttl adapter o t hT]
  · rw [getCookieOptions_nottl adapter o hT]
  · rw [getCookieOptions_ttl adapter o t hT]
  · rw [getCookieOptions_nottl adapter o hT]
  · rw [getCookieOptions_ttl adapter o t hT]

set_option maxRecDepth 100000 in
theorem C10_override_precedence_witness :
    (getCookieOptions Adapter.next
      (some { maxAge := some 77, ttlSeconds := Option.none })).maxAge = some 77 :=
  (C10_override_precedence Adapter.next
    { maxAge := some 77, ttlSeconds := Option.none }).2.1 rfl

end CookieHandoff
